import Mathlib

/-!
Verification of the sliding trade-bar aggregation engine of
polygon-differential-dataflow (src/main.rs, src/ws.rs, src/core.rs).

Embedding conventions.  The numeric kernel wraps rust_decimal; the program
treats arithmetic overflow as fatal and the specification scopes the kernel's
algebraic laws to the representable range, so the wrapped value is modelled as
an exact rational.  A std::time::Duration is a nanosecond count.  A
differential-dataflow collection accumulated at a frontier is a list of
(element, multiplicity) updates; a timestamped update stream is a list of
(element, logical time, multiplicity) triples.  Fallible operations (the
library assertion in InputSession::advance_to) return Option.
-/

namespace Aggs

/-- Model of ws::Decimal, a newtype over rust_decimal::Decimal.  The payload
is an exact rational; rust_decimal compares and equates numerically, and the
program's arithmetic is scoped to the exactly representable range. -/
structure Decimal where
  val : ℚ
deriving DecidableEq

/-- Model of the From isize impl: Decimal::new(x as i64, 0). -/
def Decimal.ofInt (x : ℤ) : Decimal := ⟨x⟩

/-- Model of the Add impl: Decimal(self.0 + rhs.0). -/
instance : Add Decimal := ⟨fun a b => ⟨a.val + b.val⟩⟩

/-- Model of the Mul impl: Decimal(self.0 * rhs.0). -/
instance : Mul Decimal := ⟨fun a b => ⟨a.val * b.val⟩⟩

/-- Model of the Neg impl: Decimal(-self.0). -/
instance : Neg Decimal := ⟨fun a => ⟨-a.val⟩⟩

/-- Subtraction, as addition of the negation (the kernel exposes + and unary -). -/
instance : Sub Decimal := ⟨fun a b => a + -b⟩

/-- Model of the Div impl: Decimal(self.0 / rhs.0). -/
instance : Div Decimal := ⟨fun a b => ⟨a.val / b.val⟩⟩

/-- Model of Mul isize for Decimal: self * Decimal::new(rhs as i64, 0).
This is how a differential-dataflow isize multiplicity scales a decimal
difference weight. -/
def Decimal.zsmul (d : ℤ) (a : Decimal) : Decimal := a * Decimal.ofInt d

/-- Model of Monoid::zero: Decimal(rust_decimal::Decimal::ZERO). -/
def Decimal.zero : Decimal := ⟨0⟩

/-- Model of Semigroup::is_zero: self.0.is_zero(). -/
def Decimal.isZero (a : Decimal) : Bool := a.val == 0

/-- Numeric order, as the derived Ord on rust_decimal values. -/
instance : LT Decimal := ⟨fun a b => a.val < b.val⟩

instance : LE Decimal := ⟨fun a b => a.val ≤ b.val⟩

instance (a b : Decimal) : Decidable (a < b) :=
  inferInstanceAs (Decidable (a.val < b.val))

instance (a b : Decimal) : Decidable (a ≤ b) :=
  inferInstanceAs (Decidable (a.val ≤ b.val))

/-- Model of std::time::Duration as a nanosecond count. -/
structure Duration where
  nanos : ℕ
deriving DecidableEq

def Duration.ofNanos (n : ℕ) : Duration := ⟨n⟩

def Duration.ofMillis (m : ℕ) : Duration := ⟨m * 1000000⟩

def Duration.ofSecs (s : ℕ) : Duration := ⟨s * 1000000000⟩

def Duration.asMillis (d : Duration) : ℕ := d.nanos / 1000000

instance : Add Duration := ⟨fun a b => ⟨a.nanos + b.nanos⟩⟩

instance : LT Duration := ⟨fun a b => a.nanos < b.nanos⟩

instance : LE Duration := ⟨fun a b => a.nanos ≤ b.nanos⟩

instance (a b : Duration) : Decidable (a < b) :=
  inferInstanceAs (Decidable (a.nanos < b.nanos))

instance (a b : Duration) : Decidable (a ≤ b) :=
  inferInstanceAs (Decidable (a.nanos ≤ b.nanos))

/-- Model of ws::StockTrade.  The wire fields: t is the u64 timestamp field,
sym the ticker (ArrayString of 8), x the exchange id, z the tape tag
(0..3), p the price, s the u32 size, c the condition codes. -/
structure StockTrade where
  t : ℕ
  sym : String
  x : ℕ
  z : ℕ
  p : Decimal
  s : ℕ
  c : List ℕ
deriving DecidableEq

/-- Trade::ticker for StockTrade: String::from(self.sym.as_str()). -/
def StockTrade.ticker (tr : StockTrade) : String := tr.sym

/-- Trade::price for StockTrade: self.p. -/
def StockTrade.price (tr : StockTrade) : Decimal := tr.p

/-- Trade::volume for StockTrade: Decimal::new(self.s as i64, 0). -/
def StockTrade.volume (tr : StockTrade) : Decimal := Decimal.ofInt tr.s

/-- Trade::timestamp for StockTrade: Duration::from_nanos(self.t), exactly as
written in src/ws.rs (the wire field is documented as milliseconds; see the
theorem for claim C7). -/
def StockTrade.timestamp (tr : StockTrade) : Duration := Duration.ofNanos tr.t

/-- BAR_LENGTH: Duration::from_secs(30). -/
def BAR_LENGTH : Duration := Duration.ofSecs 30

/-- RETENTION: Duration::from_secs(900). -/
def RETENTION : Duration := Duration.ofSecs 900

/-- truncate(dur, inc) from src/main.rs:
Duration::from_nanos((dur.as_nanos() / inc.as_nanos() * inc.as_nanos()) as u64).
The intermediate arithmetic is exact on u128; the final cast to u64 is the
mod 2^64 reduction. -/
def truncate (dur inc : Duration) : Duration :=
  Duration.ofNanos (dur.nanos / inc.nanos * inc.nanos % 2 ^ 64)

/-- The window timestamp computed in the dataflow:
truncate(trade.timestamp(), BAR_LENGTH).as_millis() as i64.  For a duration
built from a u64 nanosecond count the millisecond count is below 2^44, so the
cast to i64 is lossless and is modelled by Int.ofNat. -/
def aggTimestamp (tr : StockTrade) : ℤ :=
  Int.ofNat (truncate tr.timestamp BAR_LENGTH).asMillis

/-- The AggKey of src/main.rs: (String, i64). -/
abbrev AggKey := String × ℤ

/-- The key assigned to a trade by trades_by_window_by_ticker:
((trade.ticker(), agg_timestamp), trade). -/
def tradeKey (tr : StockTrade) : AggKey := (tr.ticker, aggTimestamp tr)

/-- Concrete trade builder used by witnesses: timestamp field tv, price, size. -/
def mkTrade (tv : ℕ) (price : ℚ) (size : ℕ) : StockTrade :=
  { t := tv, sym := "AAA", x := 4, z := 3, p := ⟨price⟩, s := size, c := [] }

/-- The explode stage of value_and_volume: each accumulated update
(trade, d) of trades_recent, keyed by trades_by_window_by_ticker, yields its
key with DiffPair weight (price * volume, volume) scaled by the isize
multiplicity d. -/
def explodeValueVolume (U : List (StockTrade × ℤ)) : List (AggKey × (Decimal × Decimal)) :=
  U.map fun u =>
    (tradeKey u.1,
      (Decimal.zsmul u.2 (u.1.price * u.1.volume), Decimal.zsmul u.2 u.1.volume))

/-- The consolidate stage: the accumulated difference-pair weight at one key
is the sum of the weights of all updates carrying that key. -/
def consolidatedWeight (xs : List (AggKey × (Decimal × Decimal))) (k : AggKey) :
    Decimal × Decimal :=
  xs.foldr (fun x acc => if x.1 = k then (x.2.1 + acc.1, x.2.2 + acc.2) else acc)
    (Decimal.zero, Decimal.zero)

/-- The value_and_volume collection of src/main.rs at one key: explode to
(price * volume, volume) difference pairs, then consolidate. -/
def valueAndVolume (U : List (StockTrade × ℤ)) (k : AggKey) : Decimal × Decimal :=
  consolidatedWeight (explodeValueVolume U) k

/-- Modelled from the spec: the sum of price * volume over the
currently-present trades (positive accumulated multiplicity) assigned to key
k, each counted with its multiplicity. -/
def presentValueSum (U : List (StockTrade × ℤ)) (k : AggKey) : Decimal :=
  (U.filter fun u => decide (tradeKey u.1 = k ∧ 0 < u.2)).foldr
    (fun u acc => Decimal.zsmul u.2 (u.1.price * u.1.volume) + acc) Decimal.zero

/-- Modelled from the spec: the sum of volume over the currently-present
trades assigned to key k, each counted with its multiplicity. -/
def presentVolumeSum (U : List (StockTrade × ℤ)) (k : AggKey) : Decimal :=
  (U.filter fun u => decide (tradeKey u.1 = k ∧ 0 < u.2)).foldr
    (fun u acc => Decimal.zsmul u.2 u.1.volume + acc) Decimal.zero

/-- Lexicographic order on (Duration, Decimal), the derived Ord on the
(timestamp, price) value pairs of prices_by_timestamp; differential dataflow
presents the consolidated reduce input in ascending order of this Ord. -/
def tsPriceLe (a b : Duration × Decimal) : Prop :=
  a.1.nanos < b.1.nanos ∨ (a.1.nanos = b.1.nanos ∧ a.2.val ≤ b.2.val)

instance : DecidableRel tsPriceLe := fun a b =>
  inferInstanceAs
    (Decidable (a.1.nanos < b.1.nanos ∨ (a.1.nanos = b.1.nanos ∧ a.2.val ≤ b.2.val)))

instance : IsTotal (Duration × Decimal) tsPriceLe :=
  ⟨by
    intro a b
    rcases lt_trichotomy a.1.nanos b.1.nanos with h | h | h
    · exact Or.inl (Or.inl h)
    · rcases le_total a.2.val b.2.val with h2 | h2
      · exact Or.inl (Or.inr ⟨h, h2⟩)
      · exact Or.inr (Or.inr ⟨h.symm, h2⟩)
    · exact Or.inr (Or.inl h)⟩

instance : IsTrans (Duration × Decimal) tsPriceLe :=
  ⟨by
    intro a b c hab hbc
    rcases hab with h1 | ⟨h1, h1'⟩ <;> rcases hbc with h2 | ⟨h2, h2'⟩
    · exact Or.inl (by omega)
    · exact Or.inl (by omega)
    · exact Or.inl (by omega)
    · exact Or.inr ⟨by omega, h1'.trans h2'⟩⟩

/-- Numeric order on prices, the derived Ord on the Decimal values of the
prices collection. -/
def decimalLe (a b : Decimal) : Prop := a.val ≤ b.val

instance : DecidableRel decimalLe := fun a b =>
  inferInstanceAs (Decidable (a.val ≤ b.val))

instance : IsTotal Decimal decimalLe := ⟨fun a b => le_total a.val b.val⟩

instance : IsTrans Decimal decimalLe := ⟨fun _ _ _ => le_trans⟩

/-- The (event_time, price) multiset of the current trades at one key, in the
ascending value order in which the reduce operator presents it.  The operator
merges duplicate values and attaches counts; the first and last value are
unaffected by that merging, so the model keeps the sorted multiset. -/
def sortedTsPrices (L : List StockTrade) : List (Duration × Decimal) :=
  List.insertionSort tsPriceLe (L.map fun tr => (tr.timestamp, tr.price))

/-- The open_close reducer of src/main.rs: over the presented values, price of
values.next() and of values.last(), defaulting to Decimal::from(0). -/
def openClose (L : List StockTrade) : Decimal × Decimal :=
  (((sortedTsPrices L).map Prod.snd).head?.getD (Decimal.ofInt 0),
   ((sortedTsPrices L).map Prod.snd).getLast?.getD (Decimal.ofInt 0))

/-- The price multiset presented to the low_high reducer, ascending. -/
def sortedPrices (L : List StockTrade) : List Decimal :=
  List.insertionSort decimalLe (L.map StockTrade.price)

/-- The low_high reducer of src/main.rs: values.next() and values.last() of
the ascending price multiset, defaulting to Decimal::from(0). -/
def lowHigh (L : List StockTrade) : Decimal × Decimal :=
  ((sortedPrices L).head?.getD (Decimal.ofInt 0),
   (sortedPrices L).getLast?.getD (Decimal.ofInt 0))

/-- Modelled from the claim, for comparison with the code: the price of the
first trade in original arrival order among those with the earliest
event_time (the stable tie-break the claim asserts). -/
def arrivalOpenPrice (L : List StockTrade) : Decimal :=
  match L.foldl
      (fun best tr =>
        match best with
        | none => some tr
        | some b => if tr.timestamp.nanos < b.timestamp.nanos then some tr else some b)
      none with
  | some tr => tr.price
  | none => Decimal.ofInt 0

/-- Concrete two-trade multiset used by the C2 witness. -/
def c2Trades : List StockTrade := [mkTrade 5 2 1, mkTrade 0 3 4]

/-- A timestamped update of the trades input: element, logical insertion time
in nanoseconds, signed multiplicity. -/
abbrev TimedUpdate := StockTrade × ℕ × ℤ

/-- The summary of the feedback variable: RETENTION + BAR_LENGTH, in
nanoseconds of logical time. -/
def RETENTION_WINDOW : ℕ := (RETENTION + BAR_LENGTH).nanos

/-- The SemigroupVariable with summary RETENTION + BAR_LENGTH: an update set
into the variable at time s becomes available at time s + summary. -/
def delayStream (summary : ℕ) (xs : List TimedUpdate) : List TimedUpdate :=
  xs.map fun u => (u.1, u.2.1 + summary, u.2.2)

/-- The negate operator: flips the sign of every multiplicity. -/
def negateStream (xs : List TimedUpdate) : List TimedUpdate :=
  xs.map fun u => (u.1, u.2.1, -u.2.2)

/-- trades_recent of src/main.rs: trades.concat(trades_old.negate()) with
trades_old the feedback variable set to trades; consolidation preserves
accumulated multiplicities, so the stream is kept as the concatenation. -/
def tradesRecentStream (input : List TimedUpdate) : List TimedUpdate :=
  input ++ negateStream (delayStream RETENTION_WINDOW input)

/-- The accumulated multiplicity of element x at logical time time: the sum
of the multiplicities of all updates of x at times at most time. -/
def accumulatedAt : List TimedUpdate → StockTrade → ℕ → ℤ
  | [], _, _ => 0
  | u :: rest, x, time =>
    (if u.1 = x ∧ u.2.1 ≤ time then u.2.2 else 0) + accumulatedAt rest x time

/-- The Stats tuple of src/main.rs, in the order it is sent to the channel:
(open, high, low, close, value, volume, count, ts). -/
abbrev Stats := Decimal × Decimal × Decimal × Decimal × Decimal × Decimal × ℤ × Duration

/-- One change handed by the probe's inspect closure to the emission callback:
key (ticker, agg_timestamp), current joined payload (count and ohlc), the
DiffPair difference (value, volume), and the logical timestamp ts.  The field
opn stands for the source's open, a reserved word here. -/
structure Change where
  ticker : String
  aggTimestamp : ℤ
  count : ℤ
  opn : Decimal
  high : Decimal
  low : Decimal
  close : Decimal
  value : Decimal
  volume : Decimal
  ts : Duration
deriving DecidableEq

/-- The as-u64 cast applied to the i64 agg_timestamp before from_millis. -/
def i64AsU64 (i : ℤ) : ℕ := (i % (2 : ℤ) ^ 64).toNat

def Change.key (c : Change) : AggKey := (c.ticker, c.aggTimestamp)

def Change.stats (c : Change) : Stats :=
  (c.opn, c.high, c.low, c.close, c.value, c.volume, c.count, c.ts)

/-- The guard of the inspect closure at the probe:
value > 0 and volume > 0 and from_millis(agg_timestamp as u64) + RETENTION > ts. -/
def gateGuard (c : Change) : Bool :=
  decide (Decimal.ofInt 0 < c.value) && decide (Decimal.ofInt 0 < c.volume) &&
    decide (c.ts < Duration.ofMillis (i64AsU64 c.aggTimestamp) + RETENTION)

/-- BTreeMap insertion as performed by aggs.extend: an existing key's value is
replaced, a new key is appended. -/
def upsert (m : List (AggKey × Stats)) (k : AggKey) (v : Stats) :
    List (AggKey × Stats) :=
  if m.any fun e => decide (e.1 = k) then m.map fun e => if e.1 = k then (k, v) else e
  else m ++ [(k, v)]

/-- Effect of one probe change on the gate's map: forwarded changes are
recorded, all others leave the map untouched. -/
def gateStep (m : List (AggKey × Stats)) (c : Change) : List (AggKey × Stats) :=
  if gateGuard c then upsert m c.key c.stats else m

def statsValue (s : Stats) : Decimal := s.2.2.2.2.1

def statsVolume (s : Stats) : Decimal := s.2.2.2.2.2.1

/-- The VWAP view computed by aggs_loop when printing: value / volume. -/
def vwap (s : Stats) : Decimal := statsValue s / statsVolume s

/-- The expiry test of the periodic scan in aggs_loop:
from_millis(agg_timestamp as u64) + BAR_LENGTH < since_the_epoch. -/
def barExpired (now : Duration) (k : AggKey) : Bool :=
  decide (Duration.ofMillis (i64AsU64 k.2) + BAR_LENGTH < now)

/-- Entries delivered to the sink by one periodic tick (retain prints and
drops exactly the expired entries). -/
def tickDelivered (now : Duration) (m : List (AggKey × Stats)) : List (AggKey × Stats) :=
  m.filter fun e => barExpired now e.1

/-- Entries retained in the map by one periodic tick. -/
def tickRemaining (now : Duration) (m : List (AggKey × Stats)) : List (AggKey × Stats) :=
  m.filter fun e => !barExpired now e.1

/-- InputSession::advance_to of the differential-dataflow library: it asserts
that the session time does not decrease and then adopts the new time; the
assertion failure (a panic) is modelled as none. -/
def advanceToInput (cur newTime : ℕ) : Option ℕ :=
  if cur ≤ newTime then some newTime else none

/-- Modelled from the spec, for comparison with advanceToInput: the claimed
update input_time := max(input_time, wall_clock_since_epoch()). -/
def advanceToSpecMax (cur newTime : ℕ) : ℕ := max cur newTime

/-- Successive input times of the ingest loop: for each received trade the
wall clock is read and advance_to is called with it. -/
def runInputTimes (cur : ℕ) : List ℕ → Option (List ℕ)
  | [] => some []
  | w :: ws =>
    (advanceToInput cur w).bind fun nxt =>
      Option.map (fun rest => nxt :: rest) (runInputTimes nxt ws)

/-- A concrete forwarded change used by witnesses. -/
def okChange : Change :=
  { ticker := "AAA", aggTimestamp := 0, count := 2, opn := ⟨100⟩, high := ⟨110⟩,
    low := ⟨100⟩, close := ⟨110⟩, value := ⟨530⟩, volume := ⟨5⟩, ts := ⟨1000⟩ }

/-- A concrete change with zero accumulated value, used by the C10 witness. -/
def zeroValueChange : Change :=
  { ticker := "AAA", aggTimestamp := 0, count := 1, opn := ⟨0⟩, high := ⟨0⟩,
    low := ⟨0⟩, close := ⟨0⟩, value := ⟨0⟩, volume := ⟨5⟩, ts := ⟨1000⟩ }

/-- C8: within the representable range (the model is exact), the decimal
kernel satisfies a + zero = a, a + b = b + a, (a + b) + c = a + (b + c),
is_zero (a - a), and (a * b) * c = a * (b * c). -/
theorem decimal_kernel_laws (a b c : Decimal) :
    a + Decimal.zero = a ∧ a + b = b + a ∧ (a + b) + c = a + (b + c) ∧
    (a - a).isZero = true ∧ (a * b) * c = a * (b * c) := by
  obtain ⟨a⟩ := a
  obtain ⟨b⟩ := b
  obtain ⟨c⟩ := c
  refine ⟨?_, ?_, ?_, ?_, ?_⟩
  · show Decimal.mk (a + (0 : ℚ)) = Decimal.mk a
    rw [add_zero]
  · show Decimal.mk (a + b) = Decimal.mk (b + a)
    rw [add_comm]
  · show Decimal.mk (a + b + c) = Decimal.mk (a + (b + c))
    rw [add_assoc]
  · show (a + -a == (0 : ℚ)) = true
    rw [add_neg_cancel]
    exact beq_self_eq_true 0
  · show Decimal.mk (a * b * c) = Decimal.mk (a * (b * c))
    rw [mul_assoc]

/-- C1: at any frontier whose accumulated trades_recent updates all have
positive multiplicity, the consolidated explode weights at each key are
exactly (sum of price * volume, sum of volume) over the currently-present
trades assigned to that key. -/
theorem value_and_volume_conservation (U : List (StockTrade × ℤ)) (k : AggKey)
    (hpos : ∀ u ∈ U, 0 < u.2) :
    valueAndVolume U k = (presentValueSum U k, presentVolumeSum U k) := by
  induction U with
  | nil => rfl
  | cons u rest ih =>
    have hu : 0 < u.2 := hpos u (List.mem_cons_self u rest)
    have ihr := ih fun v hv => hpos v (List.mem_cons_of_mem u hv)
    simp only [valueAndVolume, explodeValueVolume, consolidatedWeight,
      presentValueSum, presentVolumeSum, List.map_cons, List.foldr_cons,
      List.filter_cons] at ihr ⊢
    by_cases hk : tradeKey u.1 = k
    · rw [if_pos hk, decide_eq_true (show tradeKey u.1 = k ∧ 0 < u.2 from ⟨hk, hu⟩),
        if_pos rfl, List.foldr_cons, List.foldr_cons, ihr]
    · rw [if_neg hk, decide_eq_false (fun h => hk h.1), if_neg Bool.false_ne_true, ihr]

/-- Witness for C1 at a concrete two-trade collection. -/
theorem value_and_volume_conservation_witness :
    (∀ u ∈ [(mkTrade 0 100 2, (1 : ℤ)), (mkTrade 500 110 3, (1 : ℤ))], 0 < u.2) ∧
    valueAndVolume [(mkTrade 0 100 2, 1), (mkTrade 500 110 3, 1)]
        (tradeKey (mkTrade 0 100 2)) =
      (presentValueSum [(mkTrade 0 100 2, 1), (mkTrade 500 110 3, 1)]
        (tradeKey (mkTrade 0 100 2)),
       presentVolumeSum [(mkTrade 0 100 2, 1), (mkTrade 500 110 3, 1)]
        (tradeKey (mkTrade 0 100 2))) :=
  ⟨by decide,
   value_and_volume_conservation _ _ (by decide)⟩

/-- A nonempty list's defaulted head is a member. -/
theorem headD_mem {α : Type} {l : List α} (h : l ≠ []) (d : α) :
    l.head?.getD d ∈ l := by
  cases l with
  | nil => exact absurd rfl h
  | cons a t =>
    rw [List.head?_cons, Option.getD_some]
    exact List.mem_cons_self a t

/-- A nonempty list's defaulted last element is a member. -/
theorem getLastD_mem {α : Type} {l : List α} (h : l ≠ []) (d : α) :
    l.getLast?.getD d ∈ l := by
  rw [List.getLast?_eq_getLast l h, Option.getD_some]
  exact List.getLast_mem h

/-- In a sorted list, the defaulted head is below every member. -/
theorem rel_headD_of_sorted {α : Type} {r : α → α → Prop} [IsTotal α r]
    {l : List α} (hs : l.Sorted r) (d : α) : ∀ x ∈ l, r (l.head?.getD d) x := by
  cases l with
  | nil => intro x hx; cases hx
  | cons a t =>
    intro x hx
    rw [List.head?_cons, Option.getD_some]
    rcases List.mem_cons.mp hx with h | h
    · subst h
      rcases IsTotal.total (r := r) x x with h1 | h1 <;> exact h1
    · exact List.rel_of_sorted_cons hs x h

/-- In a sorted list, every member is below the defaulted last element. -/
theorem rel_getLastD_of_sorted {α : Type} {r : α → α → Prop} [IsTotal α r]
    {l : List α} (hs : l.Sorted r) (d : α) : ∀ x ∈ l, r x (l.getLast?.getD d) := by
  induction l with
  | nil => intro x hx; cases hx
  | cons a t ih =>
    intro x hx
    cases t with
    | nil =>
      have hxa : x = a := by simpa using hx
      subst hxa
      rw [List.getLast?_singleton, Option.getD_some]
      rcases IsTotal.total (r := r) x x with h1 | h1 <;> exact h1
    | cons b t2 =>
      rw [List.getLast?_cons_cons]
      rcases List.mem_cons.mp hx with hxa | hxt
      · subst hxa
        exact List.rel_of_sorted_cons hs _ (getLastD_mem (by simp) d)
      · exact ih hs.of_cons x hxt

/-- C2 counterexample: two trades with equal event_time in the same window,
the later arrival carrying the lower price.  The claim's stable arrival-order
tie-break picks the first arrival's price 2, but the reducer reads the
consolidated multiset sorted by (event_time, price) and opens at price 1. -/
theorem open_arrival_tiebreak_refuted :
    (openClose [mkTrade 5 2 1, mkTrade 5 1 1]).1 ≠
      arrivalOpenPrice [mkTrade 5 2 1, mkTrade 5 1 1] := by decide

/-- C2 amended: over a nonempty current multiset, low is a minimal price and
high a maximal price; open is the price of the lexicographically least
(event_time, price) pair and close the price of the lexicographically
greatest pair, event-time ties therefore resolving toward the lower price
for open and the higher price for close (not toward arrival order). -/
theorem ohlc_min_max_correct (L : List StockTrade) (hne : L ≠ []) :
    ((lowHigh L).1 ∈ L.map StockTrade.price ∧
      ∀ q ∈ L.map StockTrade.price, decimalLe (lowHigh L).1 q) ∧
    ((lowHigh L).2 ∈ L.map StockTrade.price ∧
      ∀ q ∈ L.map StockTrade.price, decimalLe q (lowHigh L).2) ∧
    (∃ pr ∈ L.map fun tr => (tr.timestamp, tr.price),
      (openClose L).1 = pr.2 ∧
        ∀ q ∈ L.map fun tr => (tr.timestamp, tr.price), tsPriceLe pr q) ∧
    (∃ pr ∈ L.map fun tr => (tr.timestamp, tr.price),
      (openClose L).2 = pr.2 ∧
        ∀ q ∈ L.map fun tr => (tr.timestamp, tr.price), tsPriceLe q pr) := by
  have hmne : L.map StockTrade.price ≠ [] := fun h0 => hne (List.map_eq_nil_iff.mp h0)
  have hmne2 : (L.map fun tr => (tr.timestamp, tr.price)) ≠ [] := fun h0 =>
    hne (List.map_eq_nil_iff.mp h0)
  have hpr : (sortedPrices L).Perm (L.map StockTrade.price) :=
    List.perm_insertionSort decimalLe (L.map StockTrade.price)
  have hps : (sortedPrices L).Sorted decimalLe :=
    List.sorted_insertionSort decimalLe (L.map StockTrade.price)
  have hqr : (sortedTsPrices L).Perm (L.map fun tr => (tr.timestamp, tr.price)) :=
    List.perm_insertionSort tsPriceLe
      (L.map fun tr : StockTrade => (tr.timestamp, tr.price))
  have hqs : (sortedTsPrices L).Sorted tsPriceLe :=
    List.sorted_insertionSort tsPriceLe
      (L.map fun tr : StockTrade => (tr.timestamp, tr.price))
  have hpne : sortedPrices L ≠ [] := by
    intro h0
    rw [h0] at hpr
    exact hmne hpr.symm.eq_nil
  have hqne : sortedTsPrices L ≠ [] := by
    intro h0
    rw [h0] at hqr
    exact hmne2 hqr.symm.eq_nil
  refine ⟨⟨?_, ?_⟩, ⟨?_, ?_⟩, ?_, ?_⟩
  · exact hpr.subset (headD_mem hpne (Decimal.ofInt 0))
  · intro q hq
    exact rel_headD_of_sorted hps (Decimal.ofInt 0) q (hpr.mem_iff.mpr hq)
  · exact hpr.subset (getLastD_mem hpne (Decimal.ofInt 0))
  · intro q hq
    exact rel_getLastD_of_sorted hps (Decimal.ofInt 0) q (hpr.mem_iff.mpr hq)
  · refine ⟨(sortedTsPrices L).head?.getD (Duration.ofNanos 0, Decimal.ofInt 0),
      hqr.subset (headD_mem hqne (Duration.ofNanos 0, Decimal.ofInt 0)), ?_, ?_⟩
    · show ((sortedTsPrices L).map Prod.snd).head?.getD (Decimal.ofInt 0) = _
      rw [List.head?_map]
      cases hls : sortedTsPrices L with
      | nil => exact absurd hls hqne
      | cons a t => simp
    · intro q hq
      exact rel_headD_of_sorted hqs (Duration.ofNanos 0, Decimal.ofInt 0) q
        (hqr.mem_iff.mpr hq)
  · refine ⟨(sortedTsPrices L).getLast?.getD (Duration.ofNanos 0, Decimal.ofInt 0),
      hqr.subset (getLastD_mem hqne (Duration.ofNanos 0, Decimal.ofInt 0)), ?_, ?_⟩
    · show ((sortedTsPrices L).map Prod.snd).getLast?.getD (Decimal.ofInt 0) = _
      rw [List.getLast?_map, List.getLast?_eq_getLast _ hqne]
      simp
    · intro q hq
      exact rel_getLastD_of_sorted hqs (Duration.ofNanos 0, Decimal.ofInt 0) q
        (hqr.mem_iff.mpr hq)

/-- Witness for the amended C2 at a concrete two-trade multiset. -/
theorem ohlc_min_max_correct_witness :
    c2Trades ≠ [] ∧
    (((lowHigh c2Trades).1 ∈ c2Trades.map StockTrade.price ∧
        ∀ q ∈ c2Trades.map StockTrade.price, decimalLe (lowHigh c2Trades).1 q) ∧
      ((lowHigh c2Trades).2 ∈ c2Trades.map StockTrade.price ∧
        ∀ q ∈ c2Trades.map StockTrade.price, decimalLe q (lowHigh c2Trades).2) ∧
      (∃ pr ∈ c2Trades.map fun tr => (tr.timestamp, tr.price),
        (openClose c2Trades).1 = pr.2 ∧
          ∀ q ∈ c2Trades.map fun tr => (tr.timestamp, tr.price), tsPriceLe pr q) ∧
      (∃ pr ∈ c2Trades.map fun tr => (tr.timestamp, tr.price),
        (openClose c2Trades).2 = pr.2 ∧
          ∀ q ∈ c2Trades.map fun tr => (tr.timestamp, tr.price), tsPriceLe q pr)) :=
  ⟨by decide, ohlc_min_max_correct c2Trades (by decide)⟩

/-- Accumulation splits over stream concatenation. -/
theorem accumulatedAt_append (xs ys : List TimedUpdate) (x : StockTrade) (time : ℕ) :
    accumulatedAt (xs ++ ys) x time = accumulatedAt xs x time + accumulatedAt ys x time := by
  induction xs with
  | nil => simp [accumulatedAt]
  | cons u rest ih =>
    simp only [accumulatedAt, List.cons_append, List.append_eq] at ih ⊢
    rw [ih]
    ring

/-- Accumulating a negated stream negates the accumulation. -/
theorem accumulatedAt_negate (xs : List TimedUpdate) (x : StockTrade) (time : ℕ) :
    accumulatedAt (negateStream xs) x time = -accumulatedAt xs x time := by
  induction xs with
  | nil => simp [accumulatedAt, negateStream]
  | cons u rest ih =>
    simp only [accumulatedAt, negateStream, List.map_cons] at ih ⊢
    rw [ih]
    by_cases hu : u.1 = x ∧ u.2.1 ≤ time
    · rw [if_pos hu, if_pos hu]
      ring
    · rw [if_neg hu, if_neg hu]
      ring

/-- C3: the feedback variable replays every insertion (x, s, d) of the trades
input as a compensating negation at time s + RETENTION + BAR_LENGTH, and at
any logical time at distance at least RETENTION + BAR_LENGTH from all
insertion times of a trade, the trade's accumulated multiplicity in
trades_recent is zero: it is no longer observable downstream. -/
theorem retention_bound (input : List TimedUpdate) (x : StockTrade) (time : ℕ)
    (hall : ∀ u ∈ input, u.1 = x → u.2.1 + RETENTION_WINDOW ≤ time) :
    (∀ u ∈ input, (u.1, u.2.1 + RETENTION_WINDOW, -u.2.2) ∈ tradesRecentStream input) ∧
    accumulatedAt (tradesRecentStream input) x time = 0 := by
  constructor
  · intro u hu
    refine List.mem_append_right input ?_
    simp only [negateStream, delayStream, List.map_map, List.mem_map]
    exact ⟨u, hu, rfl⟩
  · rw [tradesRecentStream, accumulatedAt_append, accumulatedAt_negate]
    have hmatch : accumulatedAt (delayStream RETENTION_WINDOW input) x time =
        accumulatedAt input x time := by
      induction input with
      | nil => rfl
      | cons u rest ih =>
        have hrest := ih fun v hv hvx => hall v (List.mem_cons_of_mem u hv) hvx
        simp only [accumulatedAt, delayStream, List.map_cons] at hrest ⊢
        rw [hrest]
        by_cases hx : u.1 = x
        · have hle : u.2.1 + RETENTION_WINDOW ≤ time :=
            hall u (List.mem_cons_self u rest) hx
          rw [if_pos (show u.1 = x ∧ u.2.1 + RETENTION_WINDOW ≤ time from ⟨hx, hle⟩),
            if_pos (show u.1 = x ∧ u.2.1 ≤ time from ⟨hx, by omega⟩)]
        · rw [if_neg (fun h => hx h.1), if_neg (fun h => hx h.1)]
    rw [hmatch]
    ring

/-- Witness for C3: one trade inserted at time 0 is gone at the retention
horizon. -/
theorem retention_bound_witness :
    (∀ u ∈ [(mkTrade 0 100 2, 0, (1 : ℤ))],
      u.1 = mkTrade 0 100 2 → u.2.1 + RETENTION_WINDOW ≤ RETENTION_WINDOW) ∧
    ((∀ u ∈ [(mkTrade 0 100 2, 0, (1 : ℤ))],
      (u.1, u.2.1 + RETENTION_WINDOW, -u.2.2) ∈
        tradesRecentStream [(mkTrade 0 100 2, 0, (1 : ℤ))]) ∧
    accumulatedAt (tradesRecentStream [(mkTrade 0 100 2, 0, (1 : ℤ))])
      (mkTrade 0 100 2) RETENTION_WINDOW = 0) :=
  ⟨by decide, retention_bound _ _ _ (by decide)⟩

/-- C7: the StockTrade::timestamp accessor interprets the wire field t with
Duration::from_nanos, not as milliseconds.  At t = 1000 the code yields a
1000 nanosecond duration, while the claimed event-time is 1000 milliseconds
(a 10^9 nanosecond duration). -/
theorem stock_timestamp_nanos_not_millis :
    (mkTrade 1000 100 2).timestamp = Duration.ofNanos 1000 ∧
    (mkTrade 1000 100 2).timestamp ≠ Duration.ofMillis 1000 := by
  constructor
  · rfl
  · decide

/-- Membership after an upsert: an element is an old entry or the new pair. -/
theorem mem_upsert {m : List (AggKey × Stats)} {k : AggKey} {v : Stats}
    {e : AggKey × Stats} (he : e ∈ upsert m k v) : e ∈ m ∨ e = (k, v) := by
  unfold upsert at he
  by_cases h : (m.any fun e => decide (e.1 = k)) = true
  · rw [if_pos h] at he
    rcases List.mem_map.mp he with ⟨e0, he0, heq⟩
    by_cases h0 : e0.1 = k
    · right
      rw [if_pos h0] at heq
      exact heq.symm
    · left
      rw [if_neg h0] at heq
      exact heq ▸ he0
  · rw [if_neg h] at he
    rcases List.mem_append.mp he with h1 | h1
    · exact Or.inl h1
    · right
      simpa using h1

/-- C4: a probe change is forwarded to the gate's map exactly when both
components of its difference pair are positive and the window is within
retention of the logical time; a change failing the guard leaves the map
unchanged.  The hypotheses record that agg_timestamp is the i64 obtained from
as_millis, hence nonnegative and within i64 range, which makes the source's
as-u64 cast lossless. -/
theorem gate_forwarding (c : Change) (m : List (AggKey × Stats))
    (h0 : 0 ≤ c.aggTimestamp) (h1 : c.aggTimestamp < 2 ^ 63) :
    (gateGuard c = true ↔
      (Decimal.ofInt 0 < c.value ∧ Decimal.ofInt 0 < c.volume ∧
        c.ts < Duration.ofMillis c.aggTimestamp.toNat + RETENTION)) ∧
    (gateGuard c = false → gateStep m c = m) := by
  have hcast : i64AsU64 c.aggTimestamp = c.aggTimestamp.toNat := by
    unfold i64AsU64
    rw [Int.emod_eq_of_lt h0 (by omega)]
  constructor
  · rw [gateGuard, hcast]
    simp [and_assoc]
  · intro hg
    simp [gateStep, hg]

/-- Witness for C4 at a concrete forwarded change. -/
theorem gate_forwarding_witness :
    (0 ≤ okChange.aggTimestamp ∧ okChange.aggTimestamp < 2 ^ 63) ∧
    ((gateGuard okChange = true ↔
      (Decimal.ofInt 0 < okChange.value ∧ Decimal.ofInt 0 < okChange.volume ∧
        okChange.ts < Duration.ofMillis okChange.aggTimestamp.toNat + RETENTION)) ∧
    (gateGuard okChange = false → gateStep [] okChange = [])) :=
  ⟨⟨by decide, by decide⟩, gate_forwarding okChange [] (by decide) (by decide)⟩

/-- Every entry of the gate's map built by folding gateStep has positive
volume, provided the starting entries do. -/
theorem gate_fold_volume_pos (changes : List Change) :
    ∀ m : List (AggKey × Stats), (∀ e ∈ m, Decimal.ofInt 0 < statsVolume e.2) →
      ∀ e ∈ changes.foldl gateStep m, Decimal.ofInt 0 < statsVolume e.2 := by
  induction changes with
  | nil =>
    intro m hm
    rw [List.foldl_nil]
    exact hm
  | cons c rest ih =>
    intro m hm e he
    refine ih (gateStep m c) ?_ e he
    intro e2 he2
    by_cases hg : gateGuard c = true
    · simp only [gateStep, hg, if_true] at he2
      rcases mem_upsert he2 with h | h
      · exact hm e2 h
      · subst h
        have hv := hg
        rw [gateGuard] at hv
        simp only [Bool.and_eq_true, decide_eq_true_eq] at hv
        exact hv.1.2
    · simp only [gateStep, hg, if_false] at he2
      exact hm e2 he2

/-- C9: every entry ever stored in the gate's map (starting empty) was
forwarded with volume_sum > 0, so the VWAP division value / volume performed
by the periodic scan never divides by zero. -/
theorem vwap_divisor_never_zero (changes : List Change) (e : AggKey × Stats)
    (he : e ∈ changes.foldl gateStep []) :
    Decimal.ofInt 0 < statsVolume e.2 ∧ (statsVolume e.2).val ≠ 0 := by
  have h := gate_fold_volume_pos changes [] (by intro e2 h2; cases h2) e he
  have hq : (0 : ℚ) < (statsVolume e.2).val := by
    simpa [Decimal.ofInt] using h
  exact ⟨h, ne_of_gt hq⟩

/-- Witness for C9 at a one-change history. -/
theorem vwap_divisor_never_zero_witness :
    ((okChange.key, okChange.stats) ∈ List.foldl gateStep [] [okChange]) ∧
    (Decimal.ofInt 0 < statsVolume (okChange.key, okChange.stats).2 ∧
      (statsVolume (okChange.key, okChange.stats).2).val ≠ 0) :=
  ⟨by decide, vwap_divisor_never_zero [okChange] _ (by decide)⟩

/-- C10: a change whose accumulated value component is not strictly positive
is never forwarded, even with positive volume and positive count. -/
theorem zero_value_bar_suppressed (c : Change) (m : List (AggKey × Stats))
    (hv : c.value ≤ Decimal.ofInt 0) (hvol : Decimal.ofInt 0 < c.volume)
    (hcount : 1 ≤ c.count) :
    gateGuard c = false ∧ gateStep m c = m := by
  have hq : c.value.val ≤ (Decimal.ofInt 0).val := hv
  have hnv : ¬ Decimal.ofInt 0 < c.value := fun hlt =>
    absurd (show (Decimal.ofInt 0).val < c.value.val from hlt) (not_lt.mpr hq)
  have hg : gateGuard c = false := by
    rw [gateGuard, decide_eq_false hnv]
    simp
  exact ⟨hg, by simp [gateStep, hg]⟩

/-- Witness for C10 at a concrete zero-value change. -/
theorem zero_value_bar_suppressed_witness :
    (zeroValueChange.value ≤ Decimal.ofInt 0 ∧
      Decimal.ofInt 0 < zeroValueChange.volume ∧ 1 ≤ zeroValueChange.count) ∧
    (gateGuard zeroValueChange = false ∧
      gateStep [(okChange.key, okChange.stats)] zeroValueChange =
        [(okChange.key, okChange.stats)]) :=
  ⟨⟨by decide, by decide, by decide⟩,
   zero_value_bar_suppressed zeroValueChange [(okChange.key, okChange.stats)]
     (by decide) (by decide) (by decide)⟩

/-- C5: one periodic tick of aggs_loop delivers to the sink exactly the
entries whose window_start + BAR_LENGTH is before the wall clock, removing
them from the map, and every other entry stays in the map with its key and
bar unchanged. -/
theorem tick_partition (now : Duration) (m : List (AggKey × Stats))
    (e : AggKey × Stats) :
    (e ∈ tickDelivered now m ↔ e ∈ m ∧ barExpired now e.1 = true) ∧
    (e ∈ tickRemaining now m ↔ e ∈ m ∧ barExpired now e.1 = false) := by
  constructor
  · simp [tickDelivered, List.mem_filter]
  · simp [tickRemaining, List.mem_filter]

/-- C6 counterexample: when the wall clock reads 3 while the session time is
already 5, the code path (advance_to with its monotonicity assertion) aborts
instead of adopting max(5, 3) = 5. -/
theorem advance_to_not_max :
    advanceToInput 5 3 ≠ some (advanceToSpecMax 5 3) := by decide

/-- C6 amended: the ingest loop sets input_time to the raw wall-clock reading
and the library asserts it never decreases; along any completed run the
successive input times are monotonically non-decreasing. -/
theorem input_frontier_monotone (cur : ℕ) (clocks seq : List ℕ)
    (h : runInputTimes cur clocks = some seq) :
    List.Chain (fun a b => a ≤ b) cur seq := by
  induction clocks generalizing cur seq with
  | nil =>
    simp only [runInputTimes, Option.some.injEq] at h
    subst h
    exact List.Chain.nil
  | cons w ws ih =>
    simp only [runInputTimes, advanceToInput] at h
    by_cases hc : cur ≤ w
    · rw [if_pos hc, Option.some_bind] at h
      cases hrest : runInputTimes w ws with
      | none =>
        rw [hrest] at h
        cases h
      | some rest =>
        rw [hrest] at h
        simp only [Option.map_some', Option.some.injEq] at h
        subst h
        exact List.Chain.cons hc (ih w rest hrest)
    · rw [if_neg hc, Option.none_bind] at h
      cases h

/-- Witness for the amended C6 on a concrete non-decreasing clock run. -/
theorem input_frontier_monotone_witness :
    runInputTimes 0 [1, 2, 2, 5] = some [1, 2, 2, 5] ∧
    List.Chain (fun a b => a ≤ b) 0 [1, 2, 2, 5] :=
  ⟨by decide, input_frontier_monotone 0 [1, 2, 2, 5] [1, 2, 2, 5] (by decide)⟩

end Aggs
